import Mathlib

/-!
Verification of the frame-compositing, segment-splitting and video-merging
logic of `videoconvert.py` (webptomp4).

The Python code is shallowly embedded as follows.

* Pixels are RGBA quadruples of naturals; an image (`Img`) is a pair of
  dimensions together with a pixel function.  The external Pillow
  collaborator is modelled at the granularity the script uses it:
  a decoded animation frame is a raw tile plus its placement rectangle
  `(x0, y0, x1, y1)` inside the canvas (Pillow's `frame.tile[0][1]`), its
  full-canvas RGBA conversion (`frame.convert('RGBA')`) places the tile at
  its rectangle with fully transparent pixels elsewhere, and
  `Image.paste(src, (0, 0), mask)` alpha-blends every channel with the
  mask's alpha band (`blendChan`; a mask alpha of 0 keeps the destination
  pixel, 255 takes the source pixel).
* `analyzeMode` embeds `ImageAnalyzer.analyze_image`'s update-mode scan:
  the frame scan sets mode "partial" exactly when some frame has a
  non-empty tile list whose first entry satisfies `tile[1][2:] != img.size`.
* `extract_frames` embeds `FrameExtractor.extract_frames`, with an optional
  fault index modelling an exception thrown while processing a given frame;
  the persisted files of the call are tracked in `disk`, the returned list
  in `paths`, and the composited bitmaps in `images`.
* `splitIndexPy` embeds `int(len(frames) * (split_ratio / 100))` including
  Python's IEEE-754 binary64 arithmetic: `roundRat a b` rounds the exact
  nonnegative rational `a / b` to the nearest binary64 value
  (ties to even), represented exactly as a mantissa/exponent pair `F64`.
  The embedding is exact for values in `[2^-70, 2^70)`, which covers every
  quantity the script can produce for any realistic frame count.
* `natKey`, `keyLt` and `sortFiles` embed `merge_videos`' natural sort
  (`re.split('([0-9]+)', s)` with `int(...)` on digit runs and `.lower()`
  on the rest, compared as Python compares key lists), and `merge_videos`
  embeds the control flow of the merge call, abstracting the moviepy
  collaborator by a loadability predicate and a write-failure flag.
-/

/-- One RGBA pixel; channel values are naturals (bytes in well-formed data). -/
structure RGBA where
  r : Nat
  g : Nat
  b : Nat
  a : Nat
deriving DecidableEq

/-- The fully transparent pixel, `(0, 0, 0, 0)`. -/
def RGBA.clear : RGBA := ⟨0, 0, 0, 0⟩

/-- An RGBA bitmap: dimensions plus a pixel function. -/
structure Img where
  width : Nat
  height : Nat
  px : Nat → Nat → RGBA

/-- Image equality as images: same dimensions and same pixels inside them. -/
def Img.eqv (A B : Img) : Prop :=
  A.width = B.width ∧ A.height = B.height ∧
    ∀ x, x < A.width → ∀ y, y < A.height → A.px x y = B.px x y

instance (A B : Img) : Decidable (A.eqv B) := by
  unfold Img.eqv; infer_instance

/-- Pillow's per-channel alpha blend for `paste` with a mask of alpha `m`:
mask 0 keeps the destination, mask 255 takes the source. -/
def blendChan (d s m : Nat) : Nat := (d * (255 - m) + s * m) / 255

/-- Blend all four channels of a destination and source pixel by mask alpha `m`. -/
def blendPx (d s : RGBA) (m : Nat) : RGBA :=
  ⟨blendChan d.r s.r m, blendChan d.g s.g m, blendChan d.b s.b m, blendChan d.a s.a m⟩

/-- A decoded raw tile and its placement rectangle `(x0, y0, x1, y1)` in the
canvas — Pillow's `frame.tile[0][1]` extent box.  `px` gives the tile's own
RGBA pixels, indexed from the tile's top-left corner. -/
structure Tile where
  x0 : Nat
  y0 : Nat
  x1 : Nat
  y1 : Nat
  px : Nat → Nat → RGBA

/-- Whether canvas point `(x, y)` lies inside the tile's placement rectangle. -/
def Tile.covers (t : Tile) (x y : Nat) : Bool :=
  decide (t.x0 ≤ x) && decide (x < t.x1) && decide (t.y0 ≤ y) && decide (y < t.y1)

/-- A decoded animation frame: its tile list is either empty (`none`,
Python's `if frame.tile:` guard fails) or carries one tile. -/
structure Frame where
  tile : Option Tile

/-- A frame with an empty tile list (used as an irrelevant `headD` default). -/
def noTile : Frame := ⟨none⟩

/-- All alpha values of the frame's tile are bytes.  Well-formedness side
condition of decoded Pillow data. -/
def Frame.alphaOk (f : Frame) : Prop :=
  ∀ t, f.tile = some t → ∀ x y, (t.px x y).a ≤ 255

/-- A decoded animated image: canvas size and frame sequence. -/
structure Animation where
  width : Nat
  height : Nat
  frames : List Frame

/-- The frame's own RGBA conversion at full canvas size
(`frame.convert('RGBA')`): the tile placed at its rectangle, fully
transparent elsewhere. -/
def frameImage (W H : Nat) (f : Frame) : Img :=
  { width := W, height := H,
    px := fun x y =>
      match f.tile with
      | none => RGBA.clear
      | some t => if t.covers x y then t.px (x - t.x0) (y - t.y0) else RGBA.clear }

/-- `dst.paste(src, (0, 0), src_rgba)` with the source's own alpha band as
the mask: every destination pixel under the source is alpha-blended. -/
def pasteAlphaFull (dst src : Img) : Img :=
  { width := dst.width, height := dst.height,
    px := fun x y =>
      if x < src.width ∧ y < src.height then
        blendPx (dst.px x y) (src.px x y) ((src.px x y).a)
      else dst.px x y }

/-- The spec's wording of the compositing step: paste the frame's tile at
its placement rectangle, using the tile's own alpha channel as the mask. -/
def pasteTileAlpha (dst : Img) (f : Frame) : Img :=
  { width := dst.width, height := dst.height,
    px := fun x y =>
      match f.tile with
      | none => dst.px x y
      | some t =>
        if t.covers x y then
          blendPx (dst.px x y) (t.px (x - t.x0) (y - t.y0)) ((t.px (x - t.x0) (y - t.y0)).a)
        else dst.px x y }

/-- The analyzer's update mode: `full` or partial updates (`partUpd`). -/
inductive Mode where
  | full
  | partUpd
deriving DecidableEq

/-- The analyzer's per-frame test, `frame.tile` nonempty and
`tile[1][2:] != img.size`: the tile rectangle's bottom-right corner differs
from the canvas size. -/
def tileCornerFlag (W H : Nat) (f : Frame) : Bool :=
  match f.tile with
  | none => false
  | some t => decide ((t.x1, t.y1) ≠ (W, H))

/-- The spec's wording of the same test: the tile rectangle's *size*
differs from the canvas size (refinement comparison definition). -/
def specSizeFlag (W H : Nat) (f : Frame) : Bool :=
  match f.tile with
  | none => false
  | some t => decide ((t.x1 - t.x0, t.y1 - t.y0) ≠ (W, H))

/-- `ImageAnalyzer.analyze_image`'s mode result: a non-animated image
(at most one frame) is `full`; otherwise the frame scan reports partial
exactly when some frame trips `tileCornerFlag` (the scan's early `break`
does not change the resulting mode). -/
def analyzeMode (an : Animation) : Mode :=
  if an.frames.length ≤ 1 then Mode.full
  else if an.frames.any (tileCornerFlag an.width an.height) then Mode.partUpd
  else Mode.full

/-- Result of one `extract_frames` call: the returned list of frame files
(`paths`), the frame files of this call still on disk when it returns
(`disk`), and the composited bitmaps that were saved, in temporal order
(`images`).  Frame files are identified by their frame index. -/
structure ExtractResult where
  paths : List Nat
  disk : List Nat
  images : List Img

/-- The per-frame compositing step of `FrameExtractor.extract_frames`:
in partial mode, paste the frame onto a copy of `last_frame` with the
frame's own alpha as mask; in full mode, the frame's own RGBA conversion. -/
def stepFrame (mode : Mode) (W H : Nat) (lastF : Img) (f : Frame) : Img :=
  if mode = Mode.partUpd then pasteAlphaFull lastF (frameImage W H f)
  else frameImage W H f

/-- The extraction loop.  `failAt = some j` models an exception thrown while
processing frame `j` (decode, composite or save — before the file is
persisted); the handler then deletes every path in `frame_paths` from disk
and returns the empty list. -/
def extractLoop (mode : Mode) (W H : Nat) (failAt : Option Nat) :
    List Frame → Nat → Img → List Nat → List Nat → List Img → ExtractResult
  | [], _, _, disk, paths, imgs => ⟨paths, disk, imgs⟩
  | f :: rest, idx, lastF, disk, paths, imgs =>
    if failAt = some idx then
      ⟨[], disk.filter (fun p => !(paths.contains p)), imgs⟩
    else
      extractLoop mode W H failAt rest (idx + 1) (stepFrame mode W H lastF f)
        (disk ++ [idx]) (paths ++ [idx]) (imgs ++ [stepFrame mode W H lastF f])

/-- `FrameExtractor.extract_frames`: returns `[]` immediately when the
animation has at most one frame; otherwise runs the loop over all frames
with `last_frame` initialized to the first frame's RGBA conversion.
The input is an already decoded animation, so the call itself never raises
a decode error; exceptions inside the loop are modelled by `failAt`. -/
def extract_frames (an : Animation) (failAt : Option Nat) : ExtractResult :=
  if an.frames.length ≤ 1 then ⟨[], [], []⟩
  else
    extractLoop (analyzeMode an) an.width an.height failAt an.frames 0
      (frameImage an.width an.height (an.frames.headD noTile)) [] [] []

/-- The composited frame sequence of a fault-free extraction. -/
def compositedFrames (an : Animation) : List Img := (extract_frames an none).images

/-- Reference compositing fold used to reason about the loop: the sequence
of `last_frame` values produced from a given initial canvas. -/
def composeList (mode : Mode) (W H : Nat) : List Frame → Img → List Img
  | [], _ => []
  | f :: rest, lastF =>
    stepFrame mode W H lastF f :: composeList mode W H rest (stepFrame mode W H lastF f)

/-- A nonnegative binary64 value, represented exactly as `m * 2 ^ e`. -/
structure F64 where
  m : Nat
  e : Int
deriving DecidableEq

/-- Whether `2 ^ k ≤ a / b` (for `b > 0`), by cross multiplication. -/
def le2pow (k : Int) (a b : Nat) : Bool :=
  if 0 ≤ k then decide (b * 2 ^ k.toNat ≤ a) else decide (b ≤ a * 2 ^ (-k).toNat)

/-- The binary exponent of `a / b`: the largest `k` in `[-70, 70]` with
`2 ^ k ≤ a / b` (saturated outside that range, which no value produced by
the script leaves). -/
def ratExp (a b : Nat) : Int :=
  (List.range 141).foldl
    (fun acc i => if le2pow ((i : Int) - 70) a b then (i : Int) - 70 else acc) (-70)

/-- Round `a / b` (for `b > 0`) to the nearest integer, ties to even. -/
def rneDiv (a b : Nat) : Nat :=
  let q := a / b
  let r2 := 2 * (a % b)
  if r2 < b then q else if b < r2 then q + 1 else if q % 2 = 0 then q else q + 1

/-- Round the exact nonnegative rational `a / b` (for `b > 0`) to the
nearest binary64 value, ties to even — the rounding Python applies to
`split_ratio / 100`, to `int → float` conversion and to each product. -/
def roundRat (a b : Nat) : F64 :=
  if a = 0 then ⟨0, 0⟩
  else
    let e := ratExp a b - 52
    if 0 ≤ e then ⟨rneDiv a (b * 2 ^ e.toNat), e⟩
    else ⟨rneDiv (a * 2 ^ (-e).toNat) b, e⟩

/-- Binary64 multiplication: the exact product, rounded. -/
def mulF64 (x y : F64) : F64 :=
  if 0 ≤ x.e + y.e then roundRat (x.m * y.m * 2 ^ (x.e + y.e).toNat) 1
  else roundRat (x.m * y.m) (2 ^ (-(x.e + y.e)).toNat)

/-- `int(x)` on a nonnegative binary64 value: truncation, i.e. the floor. -/
def floorF64 (x : F64) : Nat :=
  if 0 ≤ x.e then x.m * 2 ^ x.e.toNat else x.m / 2 ^ (-x.e).toNat

/-- `int(len(frames) * (split_ratio / 100))`, with Python's float
semantics: `pct / 100` is true division of binary64 values, the product is
a binary64 product against the converted length, and `int` truncates. -/
def splitIndexPy (n pct : Nat) : Nat :=
  floorF64 (mulF64 (roundRat n 1) (roundRat pct 100))

/-- The segment list built by `VideoConverter.convert_to_mp4`:
`segments = [frames[:split_index]]`, plus `frames[split_index:]` when
`split_index < len(frames)`. -/
def splitSegments {α : Type} (l : List α) (pct : Nat) : List (List α) :=
  let i := splitIndexPy l.length pct
  [l.take i] ++ (if i < l.length then [l.drop i] else [])

/-- `VideoConverter.convert_to_mp4` down to the encoder boundary: extract
frames, abort with `None` when no frames were extracted, otherwise build
the segments handed to the encoder. -/
def convert_to_mp4 (an : Animation) (pct : Nat) (failAt : Option Nat) :
    Option (List (List Nat)) :=
  let fr := (extract_frames an failAt).paths
  if fr.isEmpty then none else some (splitSegments fr pct)

/-- Python `str.lower()` on a character list (ASCII-relevant part). -/
def lowerChars (l : List Char) : List Char := l.map Char.toLower

/-- `int(text)` for a digit run. -/
def digitsVal (l : List Char) : Nat := l.foldl (fun n c => n * 10 + (c.toNat - 48)) 0

/-- One element of `natural_sort_key`'s list: an integer (from a digit run)
or a lowered text piece. -/
inductive KeyPart where
  | num (n : Nat)
  | txt (s : List Char)
deriving DecidableEq

/-- Fuel-indexed worker for `natKey`; the fuel (at least the string length
plus one) only guarantees structural termination. -/
def natKeyAux : Nat → List Char → List KeyPart
  | 0, _ => []
  | fuel + 1, l =>
    let rest := l.dropWhile (fun c => !c.isDigit)
    match rest with
    | [] => [KeyPart.txt (lowerChars (l.takeWhile (fun c => !c.isDigit)))]
    | _ :: _ =>
      KeyPart.txt (lowerChars (l.takeWhile (fun c => !c.isDigit))) ::
        KeyPart.num (digitsVal (rest.takeWhile Char.isDigit)) ::
          natKeyAux fuel (rest.dropWhile Char.isDigit)

/-- `natural_sort_key(s)`: `re.split('([0-9]+)', str(s))` with digit runs
mapped to integers and the interleaved text pieces lowered.  The produced
list alternates text, number, text, number, …, text. -/
def natKey (l : List Char) : List KeyPart := natKeyAux (l.length + 1) l

/-- Three-way comparison of naturals. -/
def cmpNat (m n : Nat) : Ordering :=
  if m < n then Ordering.lt else if n < m then Ordering.gt else Ordering.eq

/-- Python string comparison: lexicographic by code point. -/
def cmpChars : List Char → List Char → Ordering
  | [], [] => Ordering.eq
  | [], _ :: _ => Ordering.lt
  | _ :: _, [] => Ordering.gt
  | c :: cs, d :: ds =>
    match cmpNat c.toNat d.toNat with
    | Ordering.eq => cmpChars cs ds
    | o => o

/-- Comparison of two key elements.  Python raises `TypeError` on an
int/str comparison; since `natural_sort_key` lists alternate str/int
starting with str, a decisive position always compares equal kinds, so the
value chosen for the mixed cases is never observable in a sort of keys. -/
def cmpPart : KeyPart → KeyPart → Ordering
  | KeyPart.num m, KeyPart.num n => cmpNat m n
  | KeyPart.txt s, KeyPart.txt t => cmpChars s t
  | KeyPart.num _, KeyPart.txt _ => Ordering.lt
  | KeyPart.txt _, KeyPart.num _ => Ordering.gt

/-- Python list comparison: lexicographic, a strict prefix is smaller. -/
def cmpKey : List KeyPart → List KeyPart → Ordering
  | [], [] => Ordering.eq
  | [], _ :: _ => Ordering.lt
  | _ :: _, [] => Ordering.gt
  | p :: ps, q :: qs =>
    match cmpPart p q with
    | Ordering.eq => cmpKey ps qs
    | o => o

/-- `natural_sort_key(a) < natural_sort_key(b)`. -/
def keyLt (a b : List Char) : Bool := decide (cmpKey (natKey a) (natKey b) = Ordering.lt)

/-- The "not greater" order `sorted` effectively sorts by (it only ever
asks `b < a`). -/
def pyLe (a b : List Char) : Bool := !(keyLt b a)

/-- `sorted(video_files, key=natural_sort_key)`: a stable sort by the key. -/
def sortFiles (files : List (List Char)) : List (List Char) :=
  files.mergeSort pyLe

/-- The clip list `merge_videos` concatenates: the sorted inputs, minus
those whose loading raised (they are logged and skipped). -/
def mergeClips (files : List (List Char)) (loadable : List Char → Bool) :
    List (List Char) :=
  (sortFiles files).filter loadable

/-- `VideoConverter.merge_videos`' control flow: `False` for an empty input
list; `False` when no clip loads; `False` when concatenation or writing
raises (`writeFails`); otherwise `True`. -/
def merge_videos (files : List (List Char)) (loadable : List Char → Bool)
    (writeFails : Bool) : Bool :=
  if files.isEmpty then false
  else if (mergeClips files loadable).isEmpty then false
  else if writeFails then false
  else true

/-- An opaque red full-canvas tile pixel function. -/
def redPx : Nat → Nat → RGBA := fun _ _ => ⟨255, 0, 0, 255⟩

/-- An opaque blue tile pixel function. -/
def bluePx : Nat → Nat → RGBA := fun _ _ => ⟨0, 0, 255, 255⟩

/-- A one-frame animation (nothing to extract). -/
def anim1 : Animation := ⟨2, 2, [⟨some ⟨0, 0, 2, 2, redPx⟩⟩]⟩

/-- A three-frame full-update animation used to exercise a mid-loop fault. -/
def anim3 : Animation :=
  ⟨2, 2, [⟨some ⟨0, 0, 2, 2, redPx⟩⟩, ⟨some ⟨0, 0, 2, 2, bluePx⟩⟩, ⟨some ⟨0, 0, 2, 2, redPx⟩⟩]⟩

/-- A two-frame animation whose second tile is smaller than the canvas but
anchored so that its bottom-right corner coincides with the canvas size:
rectangle `(1, 1, 4, 4)` in a `4 × 4` canvas. -/
def cexAnim : Animation :=
  ⟨4, 4, [⟨some ⟨0, 0, 4, 4, redPx⟩⟩, ⟨some ⟨1, 1, 4, 4, bluePx⟩⟩]⟩

/-- A two-frame partial-update demo: full red first frame, then a
one-pixel blue tile. -/
def demoP : Animation :=
  ⟨2, 2, [⟨some ⟨0, 0, 2, 2, redPx⟩⟩, ⟨some ⟨0, 0, 1, 1, bluePx⟩⟩]⟩

/-- A two-frame full-update demo. -/
def demoF : Animation :=
  ⟨2, 2, [⟨some ⟨0, 0, 2, 2, redPx⟩⟩, ⟨some ⟨0, 0, 2, 2, bluePx⟩⟩]⟩

/-- A segment output file name, `..._part1.mp4`. -/
def partFile1 : List Char := "clip_part1.mp4".toList

/-- A segment output file name, `..._part2.mp4`. -/
def partFile2 : List Char := "clip_part2.mp4".toList

/-- Blending with mask alpha 0 keeps the destination pixel. -/
theorem blendPx_zero (d s : RGBA) : blendPx d s 0 = d := by
  simp [blendPx, blendChan]

/-- Blending a pixel onto itself (byte-valued mask) changes nothing. -/
theorem blendPx_self (d : RGBA) (m : Nat) (h : m ≤ 255) : blendPx d d m = d := by
  have hc : ∀ c : Nat, blendChan c c m = c := by
    intro c
    unfold blendChan
    rw [← Nat.mul_add, Nat.sub_add_cancel h, Nat.mul_div_cancel]
    omega
  simp [blendPx, hc]

/-- The alpha of any pixel of a well-formed frame's RGBA conversion is a byte. -/
theorem frameImage_alpha_le (W H : Nat) (f : Frame) (hA : f.alphaOk) (x y : Nat) :
    ((frameImage W H f).px x y).a ≤ 255 := by
  unfold frameImage
  cases ht : f.tile with
  | none => simp [RGBA.clear]
  | some t =>
    simp only
    split
    · exact hA t ht _ _
    · simp [RGBA.clear]

/-- Pasting a frame's full-canvas RGBA conversion at `(0, 0)` with its own
alpha as mask is, as an image, the same as pasting the frame's tile at its
placement rectangle with the tile's alpha as mask. -/
theorem pasteAlphaFull_eqv_tile (dst : Img) (W H : Nat) (f : Frame)
    (h1 : dst.width = W) (h2 : dst.height = H) :
    Img.eqv (pasteAlphaFull dst (frameImage W H f)) (pasteTileAlpha dst f) := by
  refine ⟨rfl, rfl, ?_⟩
  intro x hx y hy
  simp only [pasteAlphaFull, pasteTileAlpha, frameImage] at *
  have hxW : x < W := h1 ▸ hx
  have hyH : y < H := h2 ▸ hy
  rw [if_pos ⟨hxW, hyH⟩]
  cases ht : f.tile with
  | none => simp [blendPx_zero, RGBA.clear]
  | some t =>
    simp only
    split
    · rfl
    · simp [blendPx_zero, RGBA.clear]

/-- Pasting a well-formed frame's RGBA conversion onto itself changes
nothing: the initial `last_frame` self-paste of the loop is the identity. -/
theorem selfPaste_eqv (W H : Nat) (f : Frame) (hA : f.alphaOk) :
    Img.eqv (pasteAlphaFull (frameImage W H f) (frameImage W H f)) (frameImage W H f) := by
  refine ⟨rfl, rfl, ?_⟩
  intro x hx y hy
  have hx' : x < W := hx
  have hy' : y < H := hy
  simp only [pasteAlphaFull]
  rw [if_pos ⟨hx', hy'⟩]
  exact blendPx_self _ _ (frameImage_alpha_le W H f hA x y)

/-- The compositing step preserves the canvas width. -/
theorem stepFrame_width (mode : Mode) (W H : Nat) (lastF : Img) (f : Frame)
    (h : lastF.width = W) : (stepFrame mode W H lastF f).width = W := by
  unfold stepFrame
  split
  · exact h
  · rfl

/-- The compositing step preserves the canvas height. -/
theorem stepFrame_height (mode : Mode) (W H : Nat) (lastF : Img) (f : Frame)
    (h : lastF.height = H) : (stepFrame mode W H lastF f).height = H := by
  unfold stepFrame
  split
  · exact h
  · rfl

/-- Every image produced by the compositing fold has canvas dimensions. -/
theorem composeList_dims (mode : Mode) (W H : Nat) :
    ∀ (fs : List Frame) (lastF : Img), lastF.width = W → lastF.height = H →
      ∀ im ∈ composeList mode W H fs lastF, im.width = W ∧ im.height = H := by
  intro fs
  induction fs with
  | nil => intro lastF _ _ im him; simp [composeList] at him
  | cons f rest ih =>
    intro lastF hw hh im him
    rw [composeList] at him
    rcases List.mem_cons.mp him with h | h
    · subst h
      exact ⟨stepFrame_width mode W H lastF f hw, stepFrame_height mode W H lastF f hh⟩
    · exact ih (stepFrame mode W H lastF f)
        (stepFrame_width mode W H lastF f hw) (stepFrame_height mode W H lastF f hh) im h

/-- A fault-free extraction loop appends exactly the compositing fold's
images to the accumulator. -/
theorem extractLoop_none_images (mode : Mode) (W H : Nat) :
    ∀ (fs : List Frame) (idx : Nat) (lastF : Img) (disk paths : List Nat) (imgs : List Img),
      (extractLoop mode W H none fs idx lastF disk paths imgs).images =
        imgs ++ composeList mode W H fs lastF := by
  intro fs
  induction fs with
  | nil => intro idx lastF disk paths imgs; simp [extractLoop, composeList]
  | cons f rest ih =>
    intro idx lastF disk paths imgs
    rw [extractLoop, composeList]
    rw [if_neg (by simp)]
    rw [ih]
    simp

/-- Every image accumulated by the extraction loop (faulting or not) has
canvas dimensions, provided the running canvas and accumulator do. -/
theorem extractLoop_dims (mode : Mode) (W H : Nat) (failAt : Option Nat) :
    ∀ (fs : List Frame) (idx : Nat) (lastF : Img) (disk paths : List Nat) (imgs : List Img),
      lastF.width = W → lastF.height = H →
      (∀ im ∈ imgs, im.width = W ∧ im.height = H) →
      ∀ im ∈ (extractLoop mode W H failAt fs idx lastF disk paths imgs).images,
        im.width = W ∧ im.height = H := by
  intro fs
  induction fs with
  | nil => intro idx lastF disk paths imgs _ _ hacc im him; exact hacc im him
  | cons f rest ih =>
    intro idx lastF disk paths imgs hw hh hacc im him
    rw [extractLoop] at him
    split at him
    · exact hacc im him
    · refine ih (idx + 1) (stepFrame mode W H lastF f) _ _ _
        (stepFrame_width mode W H lastF f hw) (stepFrame_height mode W H lastF f hh)
        ?_ im him
      intro im2 him2
      rcases List.mem_append.mp him2 with h | h
      · exact hacc im2 h
      · rcases List.mem_singleton.mp h with h2
        subst h2
        exact ⟨stepFrame_width mode W H lastF f hw, stepFrame_height mode W H lastF f hh⟩

/-- First element of the compositing fold on a nonempty frame list. -/
theorem composeList_zero (mode : Mode) (W H : Nat) (f : Frame) (rest : List Frame)
    (lastF : Img) :
    (composeList mode W H (f :: rest) lastF)[0]? = some (stepFrame mode W H lastF f) := by
  rw [composeList]; exact List.getElem?_cons_zero

/-- Consecutive elements of the compositing fold are related by the
compositing step applied to the frame at the later index. -/
theorem composeList_rec (mode : Mode) (W H : Nat) :
    ∀ (fs : List Frame) (lastF : Img) (i : Nat) (prev cur : Img) (f : Frame),
      (composeList mode W H fs lastF)[i]? = some prev →
      (composeList mode W H fs lastF)[i + 1]? = some cur →
      fs[i + 1]? = some f →
      cur = stepFrame mode W H prev f := by
  intro fs
  induction fs with
  | nil => intro lastF i prev cur f h1 _ _; simp [composeList] at h1
  | cons f0 rest ih =>
    intro lastF i prev cur f h1 h2 h3
    rw [composeList] at h1 h2
    cases i with
    | zero =>
      rw [List.getElem?_cons_zero] at h1
      rw [List.getElem?_cons_succ] at h2
      rw [List.getElem?_cons_succ] at h3
      cases rest with
      | nil => simp [composeList] at h2
      | cons f1 rs =>
        rw [composeList, List.getElem?_cons_zero] at h2
        rw [List.getElem?_cons_zero] at h3
        cases h1; cases h2; cases h3
        rfl
    | succ i =>
      rw [List.getElem?_cons_succ] at h1 h2 h3
      exact ih (stepFrame mode W H lastF f0) i prev cur f h1 h2 h3

/-- In full mode the compositing fold is a pointwise map: element `i` is
frame `i`'s own RGBA conversion, independent of the running canvas. -/
theorem composeList_full_map (W H : Nat) :
    ∀ (fs : List Frame) (lastF : Img) (i : Nat),
      (composeList Mode.full W H fs lastF)[i]? = (fs[i]?).map (frameImage W H) := by
  intro fs
  induction fs with
  | nil => intro lastF i; simp [composeList]
  | cons f rest ih =>
    intro lastF i
    rw [composeList]
    cases i with
    | zero => simp [stepFrame]
    | succ i =>
      rw [List.getElem?_cons_succ, List.getElem?_cons_succ]
      exact ih (stepFrame Mode.full W H lastF f) i

/-- With at least two frames, the fault-free extraction's image list is the
compositing fold started from the first frame's RGBA conversion. -/
theorem compositedFrames_eq (an : Animation) (h : 2 ≤ an.frames.length) :
    compositedFrames an =
      composeList (analyzeMode an) an.width an.height an.frames
        (frameImage an.width an.height (an.frames.headD noTile)) := by
  unfold compositedFrames extract_frames
  rw [if_neg (by omega)]
  rw [extractLoop_none_images]
  simp

/-- Deleting from a file set every member of that same set leaves nothing. -/
theorem filter_not_contains_self (l : List Nat) :
    l.filter (fun p => !(l.contains p)) = [] := by
  rw [List.filter_eq_nil_iff]
  intro a ha
  simp [ha]

/-- If the loop starts with its disk set equal to its `frame_paths` list and
the fault index lies among the remaining frames, the exception handler
deletes every persisted file and the loop returns the empty path list. -/
theorem extractLoop_fail (mode : Mode) (W H : Nat) (j : Nat) :
    ∀ (fs : List Frame) (idx : Nat) (lastF : Img) (c : List Nat) (imgs : List Img),
      idx ≤ j → j < idx + fs.length →
      (extractLoop mode W H (some j) fs idx lastF c c imgs).disk = [] ∧
        (extractLoop mode W H (some j) fs idx lastF c c imgs).paths = [] := by
  intro fs
  induction fs with
  | nil => intro idx lastF c imgs h1 h2; simp at h2; omega
  | cons f rest ih =>
    intro idx lastF c imgs h1 h2
    rw [extractLoop]
    by_cases hj : j = idx
    · subst hj
      rw [if_pos rfl]
      exact ⟨filter_not_contains_self c, rfl⟩
    · rw [if_neg (by simpa using hj)]
      refine ih (idx + 1) (stepFrame mode W H lastF f) (c ++ [idx]) _ (by omega) ?_
      simp at h2 ⊢
      omega

/-- The fold computing `ratExp` returns either its initial `-70` or an
exponent whose power of two is below the value. -/
theorem ratExp_cases (a b : Nat) :
    ratExp a b = -70 ∨ le2pow (ratExp a b) a b = true := by
  unfold ratExp
  have main : ∀ (L : List Nat) (acc : Int), (acc = -70 ∨ le2pow acc a b = true) →
      (L.foldl (fun (acc : Int) (i : Nat) =>
          if le2pow ((i : Int) - 70) a b then (i : Int) - 70 else acc) acc
        = -70 ∨
        le2pow (L.foldl (fun (acc : Int) (i : Nat) =>
          if le2pow ((i : Int) - 70) a b then (i : Int) - 70 else acc) acc) a b
          = true) := by
    intro L
    induction L with
    | nil => intro acc h; exact h
    | cons i L ihL =>
      intro acc h
      rw [List.foldl_cons]
      apply ihL
      by_cases hc : le2pow ((i : Int) - 70) a b = true
      · rw [if_pos hc]; exact Or.inr hc
      · rw [if_neg hc]; exact h
  exact main (List.range 141) (-70) (Or.inl rfl)

/-- For a value below `2 ^ 53` the computed binary exponent is at most 52. -/
theorem ratExp_le_52 (a b : Nat) (h : a < 2 ^ 53 * b) :
    ratExp a b ≤ 52 := by
  rcases ratExp_cases a b with h70 | hle
  · rw [h70]; omega
  · by_contra hlt
    push_neg at hlt
    have h0 : (0 : Int) ≤ ratExp a b := by omega
    unfold le2pow at hle
    rw [if_pos h0] at hle
    have hba : b * 2 ^ (ratExp a b).toNat ≤ a := of_decide_eq_true hle
    have h53 : 53 ≤ (ratExp a b).toNat := by omega
    have hpow : 2 ^ 53 ≤ 2 ^ (ratExp a b).toNat := Nat.pow_le_pow_right (by omega) h53
    have : 2 ^ 53 * b ≤ a := by
      calc 2 ^ 53 * b ≤ 2 ^ (ratExp a b).toNat * b :=
            Nat.mul_le_mul_right b hpow
        _ = b * 2 ^ (ratExp a b).toNat := Nat.mul_comm _ _
        _ ≤ a := hba
    omega

/-- Round-to-nearest-even of an exact multiple is exact division. -/
theorem rneDiv_mul (c b : Nat) (hb : 0 < b) : rneDiv (c * b) b = c := by
  unfold rneDiv
  rw [Nat.mul_div_cancel _ hb, Nat.mul_mod_left]
  simp [hb]

/-- Scaling numerator and denominator by the denominator does not change
the power-of-two comparison. -/
theorem le2pow_cancel (k : Int) (n b : Nat) (hb : 0 < b) (hn : 0 < n) :
    le2pow k (n * b) b = le2pow k n 1 := by
  unfold le2pow
  split
  · rw [decide_eq_decide]
    constructor
    · intro h
      have h2 : 2 ^ k.toNat * b ≤ n * b := by
        calc 2 ^ k.toNat * b = b * 2 ^ k.toNat := Nat.mul_comm _ _
          _ ≤ n * b := h
      have := Nat.le_of_mul_le_mul_right h2 hb
      omega
    · intro h
      have h2 : 2 ^ k.toNat ≤ n := by omega
      calc b * 2 ^ k.toNat = 2 ^ k.toNat * b := Nat.mul_comm _ _
        _ ≤ n * b := Nat.mul_le_mul_right b h2
  · rw [decide_eq_decide]
    have hp : 0 < 2 ^ (-k).toNat := Nat.two_pow_pos _
    constructor
    · intro _
      have : 0 < n * 2 ^ (-k).toNat := Nat.mul_pos hn hp
      omega
    · intro _
      calc b = 1 * b := (Nat.one_mul b).symm
        _ ≤ (n * 2 ^ (-k).toNat) * b := by
            apply Nat.mul_le_mul_right
            have : 0 < n * 2 ^ (-k).toNat := Nat.mul_pos hn hp
            omega
        _ = n * b * 2 ^ (-k).toNat := by ring

/-- Scaling numerator and denominator by the denominator does not change
the computed binary exponent. -/
theorem ratExp_cancel (n b : Nat) (hb : 0 < b) (hn : 0 < n) :
    ratExp (n * b) b = ratExp n 1 := by
  unfold ratExp
  apply List.foldl_ext
  intro acc i _
  rw [le2pow_cancel _ n b hb hn]

/-- Rounding an exact integer value `n < 2 ^ 53` (in any fraction
representation) is exact: the result is `n` scaled into mantissa form. -/
theorem roundRat_exact (n b : Nat) (hb : 0 < b) (hn : 0 < n) (h53 : n < 2 ^ 53) :
    ∃ s : Nat, roundRat (n * b) b = ⟨n * 2 ^ s, -(s : Int)⟩ := by
  have hK : ratExp (n * b) b = ratExp n 1 := ratExp_cancel n b hb hn
  have hle : ratExp n 1 ≤ 52 := ratExp_le_52 n 1 (by omega)
  unfold roundRat
  rw [if_neg (Nat.mul_ne_zero (by omega) (by omega))]
  simp only [hK]
  by_cases h0 : (0 : Int) ≤ ratExp n 1 - 52
  · have he : ratExp n 1 - 52 = 0 := by omega
    rw [if_pos h0, he]
    refine ⟨0, ?_⟩
    have : rneDiv (n * b) (b * 2 ^ (0 : Int).toNat) = n := by
      have : b * 2 ^ (0 : Int).toNat = b := by simp
      rw [this]
      exact rneDiv_mul n b hb
    rw [this]
    simp
  · rw [if_neg h0]
    refine ⟨(-(ratExp n 1 - 52)).toNat, ?_⟩
    have h2 : rneDiv (n * b * 2 ^ (-(ratExp n 1 - 52)).toNat) b
        = n * 2 ^ (-(ratExp n 1 - 52)).toNat := by
      rw [show n * b * 2 ^ (-(ratExp n 1 - 52)).toNat
            = (n * 2 ^ (-(ratExp n 1 - 52)).toNat) * b by ring]
      exact rneDiv_mul _ b hb
    rw [h2]
    have hE : ratExp n 1 - 52 = -(((-(ratExp n 1 - 52)).toNat : Nat) : Int) := by omega
    exact congrArg (F64.mk (n * 2 ^ (-(ratExp n 1 - 52)).toNat)) hE

/-- Floor of a mantissa shifted right by its own scale recovers the value. -/
theorem floorF64_shift (n s : Nat) : floorF64 ⟨n * 2 ^ s, -(s : Int)⟩ = n := by
  unfold floorF64
  by_cases h : (0 : Int) ≤ -(s : Int)
  · have hs : s = 0 := by omega
    subst hs; simp
  · rw [if_neg h]
    have ht : (-(-(s : Int))).toNat = s := by omega
    simp only [ht]
    exact Nat.mul_div_cancel n (Nat.two_pow_pos s)

/-- `100 / 100` as binary64 true division is exactly 1 in mantissa form. -/
theorem roundRat_100 : roundRat 100 100 = ⟨2 ^ 52, -52⟩ := by decide

/-- Converting an integer below `2 ^ 53` to binary64 is exact. -/
theorem roundRat_nat (n : Nat) (hn : 0 < n) (h53 : n < 2 ^ 53) :
    ∃ s : Nat, roundRat n 1 = ⟨n * 2 ^ s, -(s : Int)⟩ := by
  have h := roundRat_exact n 1 Nat.one_pos hn h53
  simpa using h

/-- With ratio 100 the Python split index is exactly the frame count, for
any count an actual frame list can have (below `2 ^ 53`). -/
theorem splitIndexPy_100 (n : Nat) (h : n < 2 ^ 53) : splitIndexPy n 100 = n := by
  unfold splitIndexPy
  rw [roundRat_100]
  rcases Nat.eq_zero_or_pos n with h0 | hp
  · subst h0; decide
  · obtain ⟨s, hs⟩ := roundRat_nat n hp h
    rw [hs]
    unfold mulF64
    simp only
    have hneg : ¬ ((0 : Int) ≤ -(s : Int) + -52) := by omega
    rw [if_neg hneg]
    have ht : (-(-(s : Int) + -52)).toNat = s + 52 := by omega
    rw [ht]
    have hmul : n * 2 ^ s * 2 ^ 52 = n * 2 ^ (s + 52) := by rw [pow_add]; ring
    rw [hmul]
    obtain ⟨s2, hs2⟩ := roundRat_exact n (2 ^ (s + 52)) (Nat.two_pow_pos _) hp h
    rw [hs2]
    exact floorF64_shift n s2

/-- The two split segments always concatenate back to the original list. -/
theorem splitSegments_join {α : Type} (l : List α) (pct : Nat) :
    (splitSegments l pct).flatten = l := by
  unfold splitSegments
  by_cases h : splitIndexPy l.length pct < l.length
  · simp [h]
  · have hle : l.length ≤ splitIndexPy l.length pct := by omega
    simp [h, List.take_of_length_le hle]

/-- `cmpNat` reports equality only on equal numbers. -/
theorem cmpNat_eq (m n : Nat) (h : cmpNat m n = Ordering.eq) : m = n := by
  unfold cmpNat at h
  split_ifs at h with h1 h2
  omega

/-- `cmpNat` is antisymmetric under `Ordering.swap`. -/
theorem cmpNat_swap (m n : Nat) : cmpNat m n = (cmpNat n m).swap := by
  unfold cmpNat
  split_ifs <;> first | rfl | omega

/-- `cmpNat` reports strictly-below exactly on smaller numbers. -/
theorem cmpNat_lt_iff (m n : Nat) : cmpNat m n = Ordering.lt ↔ m < n := by
  unfold cmpNat
  split_ifs with h1 h2
  · simpa using h1
  · simp
    omega
  · simp
    omega

/-- `cmpNat` is transitive in its strict part. -/
theorem cmpNat_trans (a b c : Nat) (h1 : cmpNat a b = Ordering.lt)
    (h2 : cmpNat b c = Ordering.lt) : cmpNat a c = Ordering.lt := by
  rw [cmpNat_lt_iff] at *
  omega

/-- Code-point comparison reports equality only on equal strings. -/
theorem cmpChars_eq : ∀ (s t : List Char), cmpChars s t = Ordering.eq → s = t := by
  intro s
  induction s with
  | nil => intro t h; cases t with
    | nil => rfl
    | cons d ds => simp [cmpChars] at h
  | cons c cs ih =>
    intro t h
    cases t with
    | nil => simp [cmpChars] at h
    | cons d ds =>
      rw [cmpChars] at h
      cases hc : cmpNat c.toNat d.toNat with
      | eq =>
        rw [hc] at h
        have hcd : c = d := Char.ext (UInt32.toNat.inj (cmpNat_eq _ _ hc))
        rw [hcd, ih ds h]
      | lt => rw [hc] at h; simp at h
      | gt => rw [hc] at h; simp at h

/-- Code-point comparison is antisymmetric under `Ordering.swap`. -/
theorem cmpChars_swap : ∀ (s t : List Char), cmpChars s t = (cmpChars t s).swap := by
  intro s
  induction s with
  | nil => intro t; cases t <;> rfl
  | cons c cs ih =>
    intro t
    cases t with
    | nil => rfl
    | cons d ds =>
      rw [cmpChars, cmpChars, cmpNat_swap c.toNat d.toNat]
      cases cmpNat d.toNat c.toNat with
      | eq => exact ih ds
      | lt => rfl
      | gt => rfl

/-- Code-point comparison is transitive in its strict part. -/
theorem cmpChars_trans : ∀ (s t u : List Char), cmpChars s t = Ordering.lt →
    cmpChars t u = Ordering.lt → cmpChars s u = Ordering.lt := by
  intro s
  induction s with
  | nil =>
    intro t u h1 h2
    cases t with
    | nil => exact h2
    | cons d ds =>
      cases u with
      | nil => simp [cmpChars] at h2
      | cons e es => rfl
  | cons c cs ih =>
    intro t u h1 h2
    cases t with
    | nil => simp [cmpChars] at h1
    | cons d ds =>
      cases u with
      | nil => simp [cmpChars] at h2
      | cons e es =>
        rw [cmpChars] at h1 h2 ⊢
        cases hcd : cmpNat c.toNat d.toNat with
        | lt =>
          cases hde : cmpNat d.toNat e.toNat with
          | lt => rw [cmpNat_trans _ _ _ hcd hde]
          | eq =>
            have : d = e := Char.ext (UInt32.toNat.inj (cmpNat_eq _ _ hde))
            subst this
            rw [hcd]
          | gt => rw [hde] at h2; simp at h2
        | eq =>
          have : c = d := Char.ext (UInt32.toNat.inj (cmpNat_eq _ _ hcd))
          subst this
          rw [hcd] at h1
          cases hde : cmpNat c.toNat e.toNat with
          | lt => rfl
          | eq =>
            have : c = e := Char.ext (UInt32.toNat.inj (cmpNat_eq _ _ hde))
            subst this
            rw [hde] at h2
            exact ih ds es h1 h2
          | gt =>
            rw [hde] at h2
            simp at h2
        | gt => rw [hcd] at h1; simp at h1

/-- Key-element comparison reports equality only on equal elements. -/
theorem cmpPart_eq (p q : KeyPart) (h : cmpPart p q = Ordering.eq) : p = q := by
  cases p <;> cases q <;> simp [cmpPart] at h ⊢
  · exact cmpNat_eq _ _ h
  · exact cmpChars_eq _ _ h

/-- Key-element comparison is antisymmetric under `Ordering.swap`. -/
theorem cmpPart_swap (p q : KeyPart) : cmpPart p q = (cmpPart q p).swap := by
  cases p <;> cases q <;> simp only [cmpPart]
  · exact cmpNat_swap _ _
  · rfl
  · rfl
  · exact cmpChars_swap _ _

/-- Key-element comparison is transitive in its strict part. -/
theorem cmpPart_trans (p q r : KeyPart) (h1 : cmpPart p q = Ordering.lt)
    (h2 : cmpPart q r = Ordering.lt) : cmpPart p r = Ordering.lt := by
  cases p <;> cases q <;> cases r <;> simp [cmpPart] at *
  · exact cmpNat_trans _ _ _ h1 h2
  · exact cmpChars_trans _ _ _ h1 h2

/-- Key comparison reports equality only on equal keys. -/
theorem cmpKey_eq : ∀ (x y : List KeyPart), cmpKey x y = Ordering.eq → x = y := by
  intro x
  induction x with
  | nil => intro y h; cases y with
    | nil => rfl
    | cons q qs => simp [cmpKey] at h
  | cons p ps ih =>
    intro y h
    cases y with
    | nil => simp [cmpKey] at h
    | cons q qs =>
      rw [cmpKey] at h
      cases hc : cmpPart p q with
      | eq => rw [hc] at h; rw [cmpPart_eq _ _ hc, ih qs h]
      | lt => rw [hc] at h; simp at h
      | gt => rw [hc] at h; simp at h

/-- Key comparison is antisymmetric under `Ordering.swap`. -/
theorem cmpKey_swap : ∀ (x y : List KeyPart), cmpKey x y = (cmpKey y x).swap := by
  intro x
  induction x with
  | nil => intro y; cases y <;> rfl
  | cons p ps ih =>
    intro y
    cases y with
    | nil => rfl
    | cons q qs =>
      rw [cmpKey, cmpKey, cmpPart_swap p q]
      cases cmpPart q p with
      | eq => exact ih qs
      | lt => rfl
      | gt => rfl

/-- Key comparison is transitive in its strict part. -/
theorem cmpKey_trans : ∀ (x y z : List KeyPart), cmpKey x y = Ordering.lt →
    cmpKey y z = Ordering.lt → cmpKey x z = Ordering.lt := by
  intro x
  induction x with
  | nil =>
    intro y z h1 h2
    cases y with
    | nil => exact h2
    | cons q qs =>
      cases z with
      | nil => simp [cmpKey] at h2
      | cons r rs => rfl
  | cons p ps ih =>
    intro y z h1 h2
    cases y with
    | nil => simp [cmpKey] at h1
    | cons q qs =>
      cases z with
      | nil => simp [cmpKey] at h2
      | cons r rs =>
        rw [cmpKey] at h1 h2 ⊢
        cases hpq : cmpPart p q with
        | lt =>
          cases hqr : cmpPart q r with
          | lt => rw [cmpPart_trans _ _ _ hpq hqr]
          | eq =>
            have : q = r := cmpPart_eq _ _ hqr
            subst this
            rw [hpq]
          | gt => rw [hqr] at h2; simp at h2
        | eq =>
          have : p = q := cmpPart_eq _ _ hpq
          subst this
          rw [hpq] at h1
          cases hpr : cmpPart p r with
          | lt => rfl
          | eq =>
            have : p = r := cmpPart_eq _ _ hpr
            subst this
            rw [hpr] at h2
            exact ih qs rs h1 h2
          | gt =>
            rw [hpr] at h2
            simp at h2
        | gt => rw [hpq] at h1; simp at h1

/-- Two file names cannot each be strictly below the other. -/
theorem keyLt_asymm (a b : List Char) (h : keyLt a b = true) : keyLt b a = false := by
  unfold keyLt at *
  have h1 : cmpKey (natKey a) (natKey b) = Ordering.lt := of_decide_eq_true h
  have h2 : cmpKey (natKey b) (natKey a) = Ordering.gt := by
    rw [cmpKey_swap, h1]
    rfl
  simp [h2]

/-- No file name is strictly below itself. -/
theorem keyLt_irrefl (a : List Char) : keyLt a a = false := by
  unfold keyLt
  have h := cmpKey_swap (natKey a) (natKey a)
  cases hc : cmpKey (natKey a) (natKey a) with
  | lt => rw [hc] at h; exact absurd h (by decide)
  | eq => simp [hc]
  | gt => rw [hc] at h; exact absurd h (by decide)

/-- The order `sorted` uses is total. -/
theorem pyLe_total (a b : List Char) : (pyLe a b || pyLe b a) = true := by
  unfold pyLe
  cases hb : keyLt b a with
  | false => simp
  | true => simp [keyLt_asymm b a hb]

/-- The order `sorted` uses is transitive. -/
theorem pyLe_trans (a b c : List Char) (h1 : pyLe a b = true) (h2 : pyLe b c = true) :
    pyLe a c = true := by
  unfold pyLe keyLt at *
  have hba : ¬ (cmpKey (natKey b) (natKey a) = Ordering.lt) := by
    intro hx
    simp [hx] at h1
  have hcb : ¬ (cmpKey (natKey c) (natKey b) = Ordering.lt) := by
    intro hx
    simp [hx] at h2
  by_contra hg
  have hca : cmpKey (natKey c) (natKey a) = Ordering.lt := by
    cases hx : cmpKey (natKey c) (natKey a) with
    | lt => rfl
    | eq => simp [hx] at hg
    | gt => simp [hx] at hg
  cases hbac : cmpKey (natKey b) (natKey a) with
  | lt => exact hba hbac
  | eq =>
    have he : natKey b = natKey a := cmpKey_eq _ _ hbac
    exact hcb (by rw [he]; exact hca)
  | gt =>
    have hab : cmpKey (natKey a) (natKey b) = Ordering.lt := by
      rw [cmpKey_swap, hbac]
      rfl
    exact hcb (cmpKey_trans _ _ _ hca hab)

/-- C2 counterexample: an animated input whose second frame's tile
rectangle `(1, 1, 4, 4)` has size `3 × 3`, different from the `4 × 4`
canvas — so the claim's criterion reports PARTIAL — yet the code's scan
compares the rectangle's bottom-right corner `(4, 4)` with the canvas size
and classifies the animation as FULL. -/
theorem corner_vs_size_cex :
    cexAnim.frames.any (specSizeFlag cexAnim.width cexAnim.height) = true ∧
      analyzeMode cexAnim = Mode.full := by
  constructor
  · decide
  · decide

/-- C2 (amended): for every animated input (at least two frames), the
analyzer reports PARTIAL if and only if some frame has a non-empty tile
list whose rectangle's bottom-right corner `(x1, y1)` differs from the
canvas size — for tiles anchored at the origin this coincides with the
spec's "size differs from canvas size"; the scan's early stop does not
change the outcome. -/
theorem mode_scan_checks_corner (an : Animation) (hn : 2 ≤ an.frames.length) :
    analyzeMode an = Mode.partUpd ↔
      ∃ f ∈ an.frames, ∃ t, f.tile = some t ∧
        (t.x1, t.y1) ≠ (an.width, an.height) := by
  unfold analyzeMode
  rw [if_neg (by omega)]
  constructor
  · intro h
    by_cases ha : an.frames.any (tileCornerFlag an.width an.height) = true
    · rw [List.any_eq_true] at ha
      obtain ⟨f, hf, hflag⟩ := ha
      refine ⟨f, hf, ?_⟩
      unfold tileCornerFlag at hflag
      cases ht : f.tile with
      | none => rw [ht] at hflag; simp at hflag
      | some t =>
        rw [ht] at hflag
        exact ⟨t, rfl, of_decide_eq_true hflag⟩
    · rw [if_neg ha] at h
      simp at h
  · rintro ⟨f, hf, t, ht, hne⟩
    have ha : an.frames.any (tileCornerFlag an.width an.height) = true := by
      rw [List.any_eq_true]
      refine ⟨f, hf, ?_⟩
      unfold tileCornerFlag
      rw [ht]
      exact decide_eq_true hne
    rw [if_pos ha]

/-- C2 witness: the amended criterion applied to the two-frame demo. -/
theorem mode_scan_checks_corner_witness :
    2 ≤ demoP.frames.length ∧
      (analyzeMode demoP = Mode.partUpd ↔
        ∃ f ∈ demoP.frames, ∃ t, f.tile = some t ∧
          (t.x1, t.y1) ≠ (demoP.width, demoP.height)) :=
  ⟨by decide, mode_scan_checks_corner demoP (by decide)⟩

/-- C5 counterexample: the value a one-frame animation's extraction
returns is exactly the value a hard mid-extraction failure returns (empty
paths, empty disk, nothing composited), so the caller cannot distinguish
the empty, non-exceptional outcome from a hard extraction failure — and
`convert_to_mp4` indeed aborts with `None` on both alike. -/
theorem empty_vs_failure_indistinguishable_cex :
    extract_frames anim1 none = extract_frames anim3 (some 0) ∧
      convert_to_mp4 anim1 100 none = convert_to_mp4 anim3 100 (some 0) := by
  constructor
  · rfl
  · rfl

/-- C5 (amended): an animation with at most one frame makes the extractor
return the empty result without raising (never a decode error: the input
is already decoded, and the loop body is never entered), and
`convert_to_mp4` treats that empty result as an abort (`None`); however
the empty result equals the value returned after a hard extraction
failure, so the two outcomes are not distinguishable by the return value. -/
theorem empty_animation_returns_empty (an : Animation) (pct : Nat)
    (failAt : Option Nat) (h : an.frames.length ≤ 1) :
    extract_frames an failAt = ⟨[], [], []⟩ ∧ convert_to_mp4 an pct failAt = none := by
  have he : extract_frames an failAt = ⟨[], [], []⟩ := by
    unfold extract_frames
    rw [if_pos h]
  refine ⟨he, ?_⟩
  simp [convert_to_mp4, he]

/-- C5 witness: the one-frame animation. -/
theorem empty_animation_returns_empty_witness :
    anim1.frames.length ≤ 1 ∧
      (extract_frames anim1 none = ⟨[], [], []⟩ ∧ convert_to_mp4 anim1 100 none = none) :=
  ⟨by decide, empty_animation_returns_empty anim1 100 none (by decide)⟩

/-- C6: if decoding or compositing throws while processing any frame of the
sequence, every frame file persisted so far by the call is deleted before
it returns and the returned path list is empty — zero files of the call
remain on disk and no truncated sequence is reported as success. -/
theorem failure_cleans_all_persisted_frames (an : Animation) (i : Nat)
    (hn : 2 ≤ an.frames.length) (hi : i < an.frames.length) :
    (extract_frames an (some i)).disk = [] ∧
      (extract_frames an (some i)).paths = [] := by
  unfold extract_frames
  rw [if_neg (by omega)]
  exact extractLoop_fail (analyzeMode an) an.width an.height i an.frames 0
    (frameImage an.width an.height (an.frames.headD noTile)) [] [] (by omega) (by omega)

/-- C6 witness: fault while processing frame 1 of the three-frame demo. -/
theorem failure_cleans_all_persisted_frames_witness :
    2 ≤ anim3.frames.length ∧ 1 < anim3.frames.length ∧
      ((extract_frames anim3 (some 1)).disk = [] ∧
        (extract_frames anim3 (some 1)).paths = []) :=
  ⟨by decide, by decide, failure_cleans_all_persisted_frames anim3 1 (by decide) (by decide)⟩

/-- C7 counterexample: with 50 frames and ratio 58 (inside `(0, 100]`) the
code's float computation `int(50 * (58 / 100))` yields 28, not the exact
integer `floor(50 * 58 / 100) = 29`; the planner's first segment really
has 28 elements and the second 22. -/
theorem split_index_float_cex :
    splitIndexPy 50 58 = 28 ∧ 50 * 58 / 100 = 29 ∧
      (splitSegments (List.replicate 50 (0 : Nat)) 58).map List.length = [28, 22] := by
  refine ⟨by decide, by decide, by decide⟩

/-- C7 (amended): the split point is the truncation of the IEEE-754
binary64 product `len * (split_ratio / 100)` — which can fall below the
exact-arithmetic floor — the first segment is `frames[0:split_index]`, and
a second segment `frames[split_index:]` exists exactly when
`split_index < len(frames)`. -/
theorem split_index_float_semantics {α : Type} (l : List α) (pct : Nat)
    (_h1 : 0 < pct) (_h2 : pct ≤ 100) :
    (splitSegments l pct).head? = some (l.take (splitIndexPy l.length pct)) ∧
    ((splitSegments l pct).length = 2 ↔ splitIndexPy l.length pct < l.length) ∧
    (splitIndexPy l.length pct < l.length →
      (splitSegments l pct)[1]? = some (l.drop (splitIndexPy l.length pct))) ∧
    ((splitSegments l pct).length = 1 ↔ l.length ≤ splitIndexPy l.length pct) := by
  unfold splitSegments
  by_cases h : splitIndexPy l.length pct < l.length
  · simp [h]
  · simp [h]
    omega

/-- C7 witness: ten frames at ratio 70 (the float product is
6.999999999999999…, so the split lands at 6). -/
theorem split_index_float_semantics_witness :
    0 < 70 ∧ 70 ≤ 100 ∧
      ((splitSegments (List.range 10) 70).head? =
          some ((List.range 10).take (splitIndexPy (List.range 10).length 70)) ∧
        ((splitSegments (List.range 10) 70).length = 2 ↔
          splitIndexPy (List.range 10).length 70 < (List.range 10).length) ∧
        (splitIndexPy (List.range 10).length 70 < (List.range 10).length →
          (splitSegments (List.range 10) 70)[1]? =
            some ((List.range 10).drop (splitIndexPy (List.range 10).length 70))) ∧
        ((splitSegments (List.range 10) 70).length = 1 ↔
          (List.range 10).length ≤ splitIndexPy (List.range 10).length 70)) :=
  ⟨by decide, by decide, split_index_float_semantics (List.range 10) 70 (by decide) (by decide)⟩

/-- C8 counterexample: on a frame list of length `2 ^ 53 + 1` the length's
conversion to binary64 rounds down to `2 ^ 53`, so `split(frames, 100)`
returns two segments, not exactly one. -/
theorem split_100_two_segments_cex :
    (splitSegments (List.replicate (2 ^ 53 + 1) (0 : Nat)) 100).length = 2 := by
  have h : splitIndexPy (2 ^ 53 + 1) 100 = 2 ^ 53 := by decide
  have hl : (List.replicate (2 ^ 53 + 1) (0 : Nat)).length = 2 ^ 53 + 1 :=
    List.length_replicate _ _
  unfold splitSegments
  rw [hl, h]
  show ([(List.replicate (2 ^ 53 + 1) (0 : Nat)).take (2 ^ 53)] ++
      if 2 ^ 53 < 2 ^ 53 + 1 then
        [(List.replicate (2 ^ 53 + 1) (0 : Nat)).drop (2 ^ 53)] else []).length = 2
  rw [if_pos (by norm_num : (2 : Nat) ^ 53 < 2 ^ 53 + 1)]
  rfl

/-- C8 (amended): for every frame list the concatenation of the returned
segments, in returned order, is exactly the original sequence (no
duplicated, dropped, or reordered frames, for any ratio); and for every
frame list of fewer than `2 ^ 53` frames, ratio 100 returns exactly one
segment equal to the full input. -/
theorem split_concat_exact {α : Type} (l : List α) (pct : Nat)
    (h1 : 0 < pct) (h2 : pct ≤ 100) :
    (splitSegments l pct).flatten = l ∧
    (pct = 100 → l.length < 2 ^ 53 → splitSegments l pct = [l]) := by
  refine ⟨splitSegments_join l pct, ?_⟩
  intro h100 hlen
  subst h100
  simp only [splitSegments]
  rw [splitIndexPy_100 l.length hlen]
  rw [if_neg (by omega)]
  simp

/-- C8 witness: a three-element list at ratio 100. -/
theorem split_concat_exact_witness :
    0 < 100 ∧ 100 ≤ 100 ∧
      ((splitSegments [0, 1, 2] 100).flatten = [0, 1, 2] ∧
        (100 = 100 → ([0, 1, 2] : List Nat).length < 2 ^ 53 →
          splitSegments [0, 1, 2] 100 = [[0, 1, 2]])) :=
  ⟨by decide, by decide, split_concat_exact [0, 1, 2] 100 (by decide) (by decide)⟩

/-- C1: for a PARTIAL-mode animation, CompositedFrame 0 is (as an image)
the first frame's own RGBA conversion, and every later CompositedFrame is
the previous one with the current frame's tile pasted at its placement
rectangle under the tile's own alpha mask — a fully transparent tile pixel
leaves the accumulated pixel unchanged. -/
theorem partial_mode_composites_by_alpha_paste (an : Animation)
    (hmode : analyzeMode an = Mode.partUpd) (hn : 2 ≤ an.frames.length)
    (hA : (an.frames.headD noTile).alphaOk) :
    (∀ img0, (compositedFrames an)[0]? = some img0 →
      Img.eqv img0 (frameImage an.width an.height (an.frames.headD noTile))) ∧
    (∀ (i : Nat) (prev cur : Img) (f : Frame),
      (compositedFrames an)[i]? = some prev →
      (compositedFrames an)[i + 1]? = some cur →
      an.frames[i + 1]? = some f →
      Img.eqv cur (pasteTileAlpha prev f)) := by
  have hCeq := compositedFrames_eq an hn
  constructor
  · intro img0 h0
    rw [hCeq, hmode] at h0
    obtain ⟨f0, rest, hfr⟩ : ∃ f0 rest, an.frames = f0 :: rest := by
      cases hfr : an.frames with
      | nil => rw [hfr] at hn; simp at hn
      | cons a l => exact ⟨a, l, rfl⟩
    rw [hfr] at h0 hA ⊢
    simp only [List.headD_cons] at h0 hA ⊢
    rw [composeList_zero] at h0
    have himg : stepFrame Mode.partUpd an.width an.height
        (frameImage an.width an.height f0) f0 = img0 := by
      injection h0
    rw [← himg]
    unfold stepFrame
    rw [if_pos rfl]
    exact selfPaste_eqv an.width an.height f0 hA
  · intro i prev cur f hp hc hf
    rw [hCeq, hmode] at hp hc
    have hcur : cur = stepFrame Mode.partUpd an.width an.height prev f :=
      composeList_rec Mode.partUpd an.width an.height an.frames _ i prev cur f hp hc hf
    have hprev : prev.width = an.width ∧ prev.height = an.height :=
      composeList_dims Mode.partUpd an.width an.height an.frames _ rfl rfl prev
        (List.getElem?_mem hp)
    rw [hcur]
    unfold stepFrame
    rw [if_pos rfl]
    exact pasteAlphaFull_eqv_tile prev an.width an.height f hprev.1 hprev.2

/-- C1 witness: the two-frame partial-update demo. -/
theorem partial_mode_composites_by_alpha_paste_witness :
    analyzeMode demoP = Mode.partUpd ∧ 2 ≤ demoP.frames.length ∧
      (demoP.frames.headD noTile).alphaOk ∧
      ((∀ img0, (compositedFrames demoP)[0]? = some img0 →
        Img.eqv img0 (frameImage demoP.width demoP.height (demoP.frames.headD noTile))) ∧
      (∀ (i : Nat) (prev cur : Img) (f : Frame),
        (compositedFrames demoP)[i]? = some prev →
        (compositedFrames demoP)[i + 1]? = some cur →
        demoP.frames[i + 1]? = some f →
        Img.eqv cur (pasteTileAlpha prev f))) :=
  ⟨by decide, by decide, by intro t ht x y; cases ht; exact Nat.le_refl 255,
    partial_mode_composites_by_alpha_paste demoP (by decide) (by decide)
      (by intro t ht x y; cases ht; exact Nat.le_refl 255)⟩

/-- C3: for a FULL-mode animation every CompositedFrame is exactly that
frame's own RGBA conversion at the declared canvas size, and it does not
depend on any other frame: any FULL-mode animation with the same canvas
and the same frame at that index composites to the same bitmap there. -/
theorem full_mode_frames_independent (an : Animation)
    (hmode : analyzeMode an = Mode.full) (hn : 2 ≤ an.frames.length) :
    (∀ (i : Nat), (compositedFrames an)[i]? =
      (an.frames[i]?).map (frameImage an.width an.height)) ∧
    (∀ (i : Nat) (img : Img), (compositedFrames an)[i]? = some img →
      img.width = an.width ∧ img.height = an.height) ∧
    (∀ (bn : Animation) (i : Nat), analyzeMode bn = Mode.full →
      2 ≤ bn.frames.length → bn.width = an.width → bn.height = an.height →
      bn.frames[i]? = an.frames[i]? →
      (compositedFrames bn)[i]? = (compositedFrames an)[i]?) := by
  have hmain : ∀ (i : Nat), (compositedFrames an)[i]? =
      (an.frames[i]?).map (frameImage an.width an.height) := by
    intro i
    rw [compositedFrames_eq an hn, hmode]
    exact composeList_full_map an.width an.height an.frames _ i
  refine ⟨hmain, ?_, ?_⟩
  · intro i img h
    rw [hmain i] at h
    cases hf : an.frames[i]? with
    | none => rw [hf] at h; simp at h
    | some f =>
      rw [hf] at h
      have h2 : frameImage an.width an.height f = img := by
        simpa using h
      rw [← h2]
      exact ⟨rfl, rfl⟩
  · intro bn i hbm hbn hw hh hfr
    have hbmain : ∀ (j : Nat), (compositedFrames bn)[j]? =
        (bn.frames[j]?).map (frameImage bn.width bn.height) := by
      intro j
      rw [compositedFrames_eq bn hbn, hbm]
      exact composeList_full_map bn.width bn.height bn.frames _ j
    rw [hbmain i, hmain i, hfr, hw, hh]

/-- C3 witness: the two-frame full-update demo. -/
theorem full_mode_frames_independent_witness :
    analyzeMode demoF = Mode.full ∧ 2 ≤ demoF.frames.length ∧
      ((∀ (i : Nat), (compositedFrames demoF)[i]? =
        (demoF.frames[i]?).map (frameImage demoF.width demoF.height)) ∧
      (∀ (i : Nat) (img : Img), (compositedFrames demoF)[i]? = some img →
        img.width = demoF.width ∧ img.height = demoF.height) ∧
      (∀ (bn : Animation) (i : Nat), analyzeMode bn = Mode.full →
        2 ≤ bn.frames.length → bn.width = demoF.width → bn.height = demoF.height →
        bn.frames[i]? = demoF.frames[i]? →
        (compositedFrames bn)[i]? = (compositedFrames demoF)[i]?)) :=
  ⟨by decide, by decide, full_mode_frames_independent demoF (by decide) (by decide)⟩

/-- C4: every composited bitmap any extraction call ever saves — in either
mode, whether or not the call later faults — has exactly the animation's
declared canvas dimensions: a smaller delta tile never shrinks the output
frame. -/
theorem composited_frames_keep_canvas_size (an : Animation) (failAt : Option Nat)
    (i : Nat) (img : Img) (h : (extract_frames an failAt).images[i]? = some img) :
    img.width = an.width ∧ img.height = an.height := by
  have hmem : img ∈ (extract_frames an failAt).images := List.getElem?_mem h
  unfold extract_frames at hmem
  by_cases hlen : an.frames.length ≤ 1
  · rw [if_pos hlen] at hmem
    simp at hmem
  · rw [if_neg hlen] at hmem
    exact extractLoop_dims (analyzeMode an) an.width an.height failAt an.frames 0
      (frameImage an.width an.height (an.frames.headD noTile)) [] [] []
      rfl rfl (by intro im him; simp at him) img hmem

/-- C4 witness: frame 0 of the full-update demo. -/
theorem composited_frames_keep_canvas_size_witness :
    (extract_frames demoF none).images[0]? =
        some (frameImage 2 2 ⟨some ⟨0, 0, 2, 2, redPx⟩⟩) ∧
      ((frameImage 2 2 ⟨some ⟨0, 0, 2, 2, redPx⟩⟩).width = demoF.width ∧
        (frameImage 2 2 ⟨some ⟨0, 0, 2, 2, redPx⟩⟩).height = demoF.height) :=
  ⟨rfl, composited_frames_keep_canvas_size demoF none 0 _ rfl⟩

/-- C9: `merge_videos` concatenates clips in the natural-sort order of
their file names: the clip list is a permutation of the inputs arranged so
that every pair respects the natural-sort key order (digit runs compared
as integers, other text case-insensitively), a strictly smaller key always
comes strictly earlier whatever the input order was, and the `_part1`
name's key is strictly below the `_part2` name's key. -/
theorem merge_concatenates_natural_sorted (files : List (List Char))
    (loadable : List Char → Bool) :
    (sortFiles files).Perm files ∧
    (sortFiles files).Pairwise (fun a b => pyLe a b = true) ∧
    (mergeClips files loadable).Pairwise (fun a b => pyLe a b = true) ∧
    (∀ (i j : Nat) (hi : i < (sortFiles files).length)
        (hj : j < (sortFiles files).length),
      keyLt ((sortFiles files).get ⟨i, hi⟩) ((sortFiles files).get ⟨j, hj⟩) = true →
        i < j) ∧
    keyLt partFile1 partFile2 = true := by
  have hperm : (sortFiles files).Perm files := List.mergeSort_perm files pyLe
  have hsorted : (sortFiles files).Pairwise (fun a b => pyLe a b = true) :=
    List.sorted_mergeSort pyLe_trans pyLe_total files
  refine ⟨hperm, hsorted, ?_, ?_, ?_⟩
  · exact List.Pairwise.sublist (List.filter_sublist _) hsorted
  · intro i j hi hj hlt
    by_cases hij : i < j
    · exact hij
    · exfalso
      rcases Nat.lt_or_ge j i with hji | hji
      · have hp := List.pairwise_iff_get.mp hsorted ⟨j, hj⟩ ⟨i, hi⟩ hji
        unfold pyLe at hp
        rw [hlt] at hp
        simp at hp
      · have heq : i = j := by omega
        subst heq
        rw [keyLt_irrefl] at hlt
        simp at hlt
  · decide

/-- C9 witness: the sorted order of the two segment files, given in
reversed order, and the concrete `_part1 < _part2` key comparison. -/
theorem merge_concatenates_natural_sorted_witness :
    (sortFiles [partFile2, partFile1]).Perm [partFile2, partFile1] ∧
      keyLt partFile1 partFile2 = true :=
  ⟨(merge_concatenates_natural_sorted [partFile2, partFile1] (fun _ => true)).1,
    (merge_concatenates_natural_sorted [partFile2, partFile1] (fun _ => true)).2.2.2.2⟩

/-- C10: `merge_videos` returns `False` exactly when the input list is
empty, no input loads as a clip, or concatenating/writing throws; an input
that fails to load is skipped (it is absent from the concatenated clip
list), and when at least one input loads and writing succeeds the call
returns `True` even though unloadable inputs were omitted. -/
theorem merge_videos_failure_semantics (files : List (List Char))
    (loadable : List Char → Bool) (wf : Bool) :
    (merge_videos files loadable wf = false ↔
      files = [] ∨ (∀ f ∈ files, loadable f = false) ∨ wf = true) ∧
    (∀ f ∈ files, loadable f = false → f ∉ mergeClips files loadable) ∧
    (files ≠ [] → (∃ f ∈ files, loadable f = true) → wf = false →
      merge_videos files loadable wf = true) := by
  have hperm : (sortFiles files).Perm files := List.mergeSort_perm files pyLe
  have hclips : (mergeClips files loadable = []) ↔ (∀ f ∈ files, loadable f = false) := by
    unfold mergeClips
    rw [List.filter_eq_nil_iff]
    constructor
    · intro h f hf
      have := h f (hperm.mem_iff.mpr hf)
      simpa using this
    · intro h f hf
      have := h f (hperm.mem_iff.mp hf)
      simp [this]
  refine ⟨?_, ?_, ?_⟩
  · unfold merge_videos
    by_cases h0 : files.isEmpty
    · rw [if_pos h0]
      simp [List.isEmpty_iff.mp h0]
    · rw [if_neg h0]
      by_cases h1 : (mergeClips files loadable).isEmpty
      · rw [if_pos h1]
        have hall : ∀ f ∈ files, loadable f = false :=
          hclips.mp (List.isEmpty_iff.mp h1)
        constructor
        · intro _
          exact Or.inr (Or.inl hall)
        · intro _
          rfl
      · rw [if_neg h1]
        have hne : ¬ (∀ f ∈ files, loadable f = false) := fun hc =>
          h1 (List.isEmpty_iff.mpr (hclips.mpr hc))
        have hfe : files ≠ [] := fun hc => h0 (List.isEmpty_iff.mpr hc)
        by_cases hw : wf = true
        · rw [if_pos hw]
          simp [hw]
        · rw [if_neg hw]
          simp [hfe, hne, hw]
  · intro f hf hload hmem
    unfold mergeClips at hmem
    rw [List.mem_filter] at hmem
    rw [hload] at hmem
    simp at hmem
  · intro hne hex hwf
    unfold merge_videos
    rw [if_neg (fun hc => hne (List.isEmpty_iff.mp hc))]
    have h1 : ¬ (mergeClips files loadable).isEmpty = true := by
      intro hc
      obtain ⟨f, hf, hl⟩ := hex
      have := hclips.mp (List.isEmpty_iff.mp hc) f hf
      rw [hl] at this
      simp at this
    rw [if_neg h1]
    rw [if_neg (by simp [hwf])]

/-- C10 witness: one loadable and one unloadable input, no write failure:
the merge succeeds while the unloadable input is skipped. -/
theorem merge_videos_failure_semantics_witness :
    ([partFile1, partFile2] : List (List Char)) ≠ [] ∧
      (∃ f ∈ ([partFile1, partFile2] : List (List Char)),
        (fun f => decide (f = partFile1)) f = true) ∧
      merge_videos [partFile1, partFile2] (fun f => decide (f = partFile1)) false = true ∧
      partFile2 ∉ mergeClips [partFile1, partFile2] (fun f => decide (f = partFile1)) :=
  ⟨by decide, by decide,
    (merge_videos_failure_semantics [partFile1, partFile2]
      (fun f => decide (f = partFile1)) false).2.2 (by decide) (by decide) rfl,
    (merge_videos_failure_semantics [partFile1, partFile2]
      (fun f => decide (f = partFile1)) false).2.1 partFile2 (by decide) (by decide)⟩
